import Mathlib

/-!
Verification development for the AI-BOT repository (semantic chunking,
vector retrieval, and front-end message splitting).

Text is modelled as `List Char`.  Python string primitives (`strip`,
`lower`, `title`, `split`, the two regular expressions of `CHUNK.py`) are
embedded as structurally recursive functions so that every definition
evaluates inside the kernel on concrete inputs.
-/

/-- Character class of Python's `\s` (and of `str.strip`) for the ASCII
range handled by this corpus: space, tab, newline, carriage return,
vertical tab, form feed. -/
def isPySpace (c : Char) : Bool :=
  c = ' ' || c = '\t' || c = '\n' || c = '\r' || c = '\x0b' || c = '\x0c'

/-- Character class `[a-z]` of the source regexes (they run on lowered text). -/
def isLowerAZ (c : Char) : Bool :=
  'a' ≤ c && c ≤ 'z'

/-- Model of Python `str.lower` (ASCII). -/
def pyLower (l : List Char) : List Char :=
  l.map Char.toLower

/-- Model of Python `str.strip`: drop leading and trailing whitespace. -/
def pyStrip (l : List Char) : List Char :=
  ((l.dropWhile isPySpace).reverse.dropWhile isPySpace).reverse

/-- Worker for `pyTitle`: `prevAlpha` records whether the previous character
was a letter (Python title-cases the first letter of each letter run). -/
def pyTitleGo (prevAlpha : Bool) : List Char → List Char
  | [] => []
  | c :: rest =>
    (if c.isAlpha then (if prevAlpha then c.toLower else c.toUpper) else c)
      :: pyTitleGo c.isAlpha rest

/-- Model of Python `str.title`. -/
def pyTitle (l : List Char) : List Char :=
  pyTitleGo false l

/-- Worker for `splitNl`; `cur` holds the current field reversed. -/
def splitNlGo (cur : List Char) : List Char → List (List Char)
  | [] => [cur.reverse]
  | c :: rest =>
    if c = '\n' then cur.reverse :: splitNlGo [] rest
    else splitNlGo (c :: cur) rest

/-- Model of Python `text.split('\n')` (keeps empty fields). -/
def splitNl (l : List Char) : List (List Char) :=
  splitNlGo [] l

/-- Worker for `tokens`; `cur` holds the current token reversed. -/
def tokensGo (cur : List Char) : List Char → List (List Char)
  | [] => if cur = [] then [] else [cur.reverse]
  | c :: rest =>
    if isPySpace c then
      if cur = [] then tokensGo [] rest else cur.reverse :: tokensGo [] rest
    else tokensGo (c :: cur) rest

/-- Maximal whitespace-free words of a text, in order.  Two texts with the
same `tokens` are equal modulo whitespace normalization. -/
def tokens (l : List Char) : List (List Char) :=
  tokensGo [] l

/-- Model of Python `' '.join`. -/
def joinSp : List (List Char) → List Char
  | [] => []
  | [x] => x
  | x :: y :: rest => x ++ ' ' :: joinSp (y :: rest)

/-- Whitespace normalization: collapse every whitespace run to one space and
trim the ends (the sense in which the spec compares concatenations). -/
def normWS (l : List Char) : List Char :=
  joinSp (tokens l)

/-- Sentence-final punctuation of the splitting regex `(?<=[.!?])\s+`. -/
def isSentEnd (c : Char) : Bool :=
  c = '.' || c = '!' || c = '?'

/-- Worker for `splitSentences`, a left-to-right simulation of
`re.split(r'(?<=[.!?])\s+', s)`: when the character just consumed (head of
the reversed accumulator `acc`) is `.`/`!`/`?` and the next character is
whitespace, the accumulated piece ends and the whole whitespace run is
consumed (`skipping = true`). -/
def splitSentGo (skipping : Bool) (acc : List Char) : List Char → List (List Char)
  | [] => [acc.reverse]
  | c :: rest =>
    if skipping then
      if isPySpace c then splitSentGo true [] rest
      else splitSentGo false [c] rest
    else if isPySpace c && isSentEnd (acc.headD ' ') then
      acc.reverse :: splitSentGo true [] rest
    else splitSentGo false (c :: acc) rest

/-- Model of `re.split(r'(?<=[.!?])\s+', s)` from `create_chunks`. -/
def splitSentences (s : List Char) : List (List Char) :=
  splitSentGo false [] s

/-- Decidable substring test, the model of Python's `needle in haystack`. -/
def substrIn (needle : List Char) : List Char → Bool
  | [] => needle.isEmpty
  | c :: rest => needle.isPrefixOf (c :: rest) || substrIn needle rest

/-- Record produced by `SemanticChunker.create_chunks` (the Python dict with
keys `wife_name`, `aliases`, `section`, `content`, `char_count`). -/
structure Chunk where
  wife_name : List Char
  aliases : List (List Char)
  sectionTitle : List Char
  content : List Char
  char_count : Nat
deriving DecidableEq, Repr

/-- Section accumulator of `split_into_sections`: a title and the list of
paragraphs collected so far. -/
structure TextSection where
  title : List Char
  paras : List (List Char)
deriving DecidableEq, Repr

/-- The fixed `section_markers` vocabulary of `split_into_sections`,
in source order. -/
def sectionMarkers : List (List Char) :=
  ["name and lineage".data, "her marriage".data, "her life with".data,
   "her emigration".data, "her death".data, "her virtues".data,
   "embracing islam".data, "her childhood".data, "her upbringing".data,
   "her knowledge".data, "wisdom behind".data, "her contributions".data,
   "her generosity".data, "battle of".data, "her worship".data,
   "her piety".data, "criteria for".data, "the wisdom".data,
   "her father".data, "her mother".data]

/-- Worker of `split_into_sections`: fold over the paragraph stream keeping
the current section; a paragraph whose lowering starts with a marker closes
the current section (if non-empty) and opens a new one titled by the
title-cased marker. -/
def sectGo (cur : TextSection) : List (List Char) → List TextSection
  | [] => if cur.paras = [] then [] else [cur]
  | p :: ps =>
    match sectionMarkers.find? (fun m => m.isPrefixOf (pyLower p)) with
    | some m =>
        (if cur.paras = [] then [] else [cur]) ++
          sectGo ⟨pyTitle m, [p]⟩ ps
    | none => sectGo ⟨cur.title, cur.paras ++ [p]⟩ ps

/-- Model of `SemanticChunker.split_into_sections`: non-empty stripped lines
are the paragraphs; the fold starts in an `Introduction` section. -/
def split_into_sections (text : List Char) : List TextSection :=
  sectGo ⟨"Introduction".data, []⟩
    (((splitNl text).map pyStrip).filter (fun p => p ≠ []))

example : tokens "  ab  cd ".data = ["ab".data, "cd".data] := by decide
example : pyStrip "  ab ".data = "ab".data := by decide
example : pyTitle "her marriage".data = "Her Marriage".data := by decide
example : splitSentences "aaaa. bbbbbb. c.".data =
    ["aaaa.".data, "bbbbbb.".data, "c.".data] := by decide
example : splitSentences "a. ".data = ["a.".data, []] := by decide
example : substrIn "umm".data "x umm y".data = true := by decide

/-- Literal prefix of the wife-name regex
`umm al-muminin\s+([a-z]+(?:\s+bint\s+[a-z]+(?:\s+[a-z]+)?)?)`. -/
def ummLit : List Char := "umm al-muminin".data

/-- Optional second clause of the wife-name regex:
`(?:\s+bint\s+[a-z]+(?:\s+[a-z]+)?)?` matched greedily at `u`; returns the
matched characters, or `[]` when the clause matches empty. -/
def ummOptClause (u : List Char) : List Char :=
  let ws2 := u.takeWhile isPySpace
  if ws2 = [] then []
  else
    let u2 := u.drop ws2.length
    let r2 := u2.takeWhile isLowerAZ
    if r2 = "bint".data then
      let u3 := u2.drop r2.length
      let ws3 := u3.takeWhile isPySpace
      if ws3 = [] then []
      else
        let u4 := u3.drop ws3.length
        let r3 := u4.takeWhile isLowerAZ
        if r3 = [] then []
        else
          let u5 := u4.drop r3.length
          let ws4 := u5.takeWhile isPySpace
          let r4 := (u5.drop ws4.length).takeWhile isLowerAZ
          if ws4 = [] || r4 = [] then ws2 ++ r2 ++ ws3 ++ r3
          else ws2 ++ r2 ++ ws3 ++ r3 ++ ws4 ++ r4
    else []

/-- Attempts the wife-name regex at the start of `u` (already lowered);
returns the capture group on success. -/
def ummTryAt (u : List Char) : Option (List Char) :=
  if ummLit.isPrefixOf u then
    let u1 := u.drop ummLit.length
    let ws1 := u1.takeWhile isPySpace
    if ws1 = [] then none
    else
      let u2 := u1.drop ws1.length
      let r1 := u2.takeWhile isLowerAZ
      if r1 = [] then none
      else some (r1 ++ ummOptClause (u2.drop r1.length))
  else none

/-- Model of `re.search` for the wife-name regex: first position at which the
pattern matches wins. -/
def ummScan : List Char → Option (List Char)
  | [] => none
  | c :: rest =>
    match ummTryAt (c :: rest) with
    | some cap => some cap
    | none => ummScan rest

/-- Character class `[:\s]` separating an alias-introduction phrase from its
capture. -/
def isAliasSep (c : Char) : Bool :=
  c = ':' || isPySpace c

/-- Character class `[a-z\s]` of the alias capture group. -/
def isAliasCh (c : Char) : Bool :=
  isLowerAZ c || isPySpace c

/-- Terminator `(?:[,\.]|$)` of the alias regexes: a comma or dot (consumed),
or the end of the string ('$' also matches just before a lone trailing
newline).  Returns how many characters the terminator consumes. -/
def aliasTerm (rest : List Char) : Option Nat :=
  match rest with
  | [] => some 0
  | c :: rest' =>
    if c = ',' || c = '.' then some 1
    else if c = '\n' && rest' = [] then some 0
    else none

/-- Greedy attempt of the capture `([a-z\s]{3,20})(?:[,\.]|$)` at `u`,
backtracking the capture length `m` downward; returns the capture and the
remainder of the text after the whole match. -/
def aliasTryCap (u : List Char) (m : Nat) : Option (List Char × List Char) :=
  match m with
  | 0 => none
  | m' + 1 =>
    if m' + 1 < 3 then none
    else
      match aliasTerm (u.drop (m' + 1)) with
      | some consumed => some (u.take (m' + 1), u.drop (m' + 1 + consumed))
      | none => aliasTryCap u m'

/-- Attempts separator-plus-capture after an alias-introduction literal:
`[:\s]+` is matched greedily and gives characters back one at a time (each
give-back moves the capture start one position left-to-right later), the
standard backtracking order of the Python engine. -/
def aliasTrySep (u1 : List Char) : Option (List Char × List Char) :=
  let k := (u1.takeWhile isAliasSep).length
  if k = 0 then none
  else
    (List.range k).findSome? (fun g =>
      let u2 := u1.drop (k - g)
      let capRun := (u2.takeWhile isAliasCh).length
      aliasTryCap u2 (min 20 capRun))

/-- Fuelled `re.findall` scan for one alias pattern
`lit[:\s]+([a-z\s]{3,20})(?:[,\.]|$)`: at each position try the literal and
the rest of the pattern; on a match, resume after it. -/
def aliasFindGo (lit : List Char) : Nat → List Char → List (List Char)
  | 0, _ => []
  | _ + 1, [] => []
  | fuel + 1, u@(_ :: rest) =>
    if lit.isPrefixOf u then
      match aliasTrySep (u.drop lit.length) with
      | some (cap, after) => cap :: aliasFindGo lit fuel after
      | none => aliasFindGo lit fuel rest
    else aliasFindGo lit fuel rest

/-- Model of `re.findall(pattern, text)` for one alias pattern. -/
def aliasFindall (lit : List Char) (t : List Char) : List (List Char) :=
  aliasFindGo lit (t.length + 1) t

/-- The four alias-introduction literals of `extract_wife_info`,
in source order. -/
def aliasLits : List (List Char) :=
  ["also known as".data, "nicknamed".data, "called".data, "dubbed".data]

/-- Validation applied to a captured alias candidate in
`extract_wife_info`: after stripping, length between 3 and 20 and strictly
more than 70 percent alphabetic characters
(`sum(c.isalpha() for c in alias) > len(alias) * 0.7`; the float products
`len * 0.7` are exact at every integer threshold in range, so the integer
inequality `10 * alpha > 7 * len` is an exact translation). -/
def validAlias (cand : List Char) : Bool :=
  let a := pyStrip cand
  3 ≤ a.length && a.length ≤ 20 &&
    10 * (a.filter Char.isAlpha).length > 7 * a.length

/-- Result record of `extract_wife_info`. -/
structure WifeInfo where
  wife_name : Option (List Char)
  aliases : List (List Char)
deriving DecidableEq, Repr

/-- Model of `SemanticChunker.extract_wife_info`: the wife-name regex search
on the lowered text, then the four alias patterns' captures filtered by
`validAlias`, title-cased, and de-duplicated (`list(set(...))`; Python's
set order is hash-dependent, modelled here as `List.dedup`; the claims about
this value concern only membership and duplicate-freeness). -/
def extract_wife_info (text : List Char) : WifeInfo :=
  let t := pyLower text
  { wife_name := (ummScan t).map pyTitle
    aliases :=
      ((aliasLits.flatMap (fun lit => aliasFindall lit t)).filter
          (fun cand => validAlias cand)).map (fun cand => pyTitle (pyStrip cand))
        |>.dedup }

/-- Sentence-packing loop of `create_chunks` for an oversized section:
`cur` is the buffer of stripped sentences, `curLen` the running length
(`current_length` of the source, which counts one separator per `else`-branch
append).  A sentence whose addition would exceed `maxS` flushes the buffer,
but only when `curLen` has reached `minS`; the final buffer is flushed
unconditionally if non-empty. -/
def packGo (wn : List Char) (al : List (List Char)) (ti : List Char)
    (maxS minS : Nat) (cur : List (List Char)) (curLen : Nat) :
    List (List Char) → List Chunk
  | [] =>
    if cur = [] then []
    else [⟨wn, al, ti, joinSp cur, (joinSp cur).length⟩]
  | s :: rest =>
    let s' := pyStrip s
    if s' = [] then packGo wn al ti maxS minS cur curLen rest
    else if maxS < curLen + s'.length && minS ≤ curLen then
      ⟨wn, al, ti, joinSp cur, (joinSp cur).length⟩ ::
        packGo wn al ti maxS minS [s'] s'.length rest
    else packGo wn al ti maxS minS (cur ++ [s']) (curLen + s'.length + 1) rest

/-- Chunks emitted for one section by `create_chunks`: a section whose joined
content fits in `maxS` becomes a single chunk; otherwise it is split into
sentences and packed by `packGo`. -/
def chunksOfSection (maxS minS : Nat) (wn : List Char)
    (al : List (List Char)) (sec : TextSection) : List Chunk :=
  let st := joinSp sec.paras
  if st.length ≤ maxS then [⟨wn, al, sec.title, st, st.length⟩]
  else packGo wn al sec.title maxS minS [] 0 (splitSentences st)

/-- Model of `SemanticChunker.create_chunks` (the chunker is constructed with
`max_chunk_size, min_chunk_size`; `process_chapters` instantiates 800/400).
`wife_info['wife_name'] or 'Unknown'` is the `getD`, since a successful
regex capture is never the empty string. -/
def create_chunks (maxS minS : Nat) (text : List Char) : List Chunk :=
  let wi := extract_wife_info text
  (split_into_sections text).flatMap
    (chunksOfSection maxS minS (wi.wife_name.getD "Unknown".data) wi.aliases)

/-- Post-processing pass of `process_chapters` (lines 279-294): a chunk whose
`wife_name` is `Umm` or `Unknown` is renamed from content keywords; the
`conclusion` keyword also rewrites the section title. -/
def fixChunk (c : Chunk) : Chunk :=
  if c.wife_name = "Umm".data || c.wife_name = "Unknown".data then
    let cl := pyLower c.content
    if substrIn "umm salamah".data cl then
      { c with wife_name := "Umm Salamah Hind Bint Umayyah".data }
    else if substrIn "umm habibah".data cl then
      { c with wife_name := "Umm Habibah Ramlah Bint Abu Sufyan".data }
    else if substrIn "conclusion".data cl then
      { c with wife_name := "Conclusion".data,
               sectionTitle := "Conclusion".data }
    else c
  else c

/-- The full post-processing pass over the chunk store. -/
def postProcess (cs : List Chunk) : List Chunk :=
  cs.map fixChunk

example :
    (create_chunks 10 8 "aaaa. bbbbbb. c.".data).map (fun c => c.content) =
      ["aaaa. bbbbbb.".data, "c.".data] := by decide
example :
    (create_chunks 10 8 "aaaaaa. bbbb.".data).map (fun c => c.content) =
      ["aaaaaa.".data, "bbbb.".data] := by decide
example :
    (create_chunks 800 400 "Her Marriage. She married.\nHer Death. Late.".data).map
        (fun c => (c.sectionTitle, c.content)) =
      [("Her Marriage".data, "Her Marriage. She married.".data),
       ("Her Death".data, "Her Death. Late.".data)] := by decide
example :
    (extract_wife_info "Umm al-Muminin Aisha bint Abu Bakr, also known as: humayra.".data).wife_name
      = some "Aisha Bint Abu Bakr".data := by decide
example :
    (extract_wife_info "she was also known as: humayra, and dubbed x.".data).aliases
      = ["Humayra".data] := by decide

/-- Dot product of two stored vectors (the similarity arithmetic of
`retrieval.py`, which NumPy performs in floating point, is modelled
exactly over the rationals). -/
def dotQ (a b : List ℚ) : ℚ :=
  (List.zipWith (fun x y => x * y) a b).sum

/-- Structural integer square root used by `ratSqrt` (largest `k ≤ n` with
`k * k ≤ n`), kernel-reducible on concrete values. -/
def natSqrtGo (n : Nat) : Nat → Nat
  | 0 => 0
  | k + 1 => if (k + 1) * (k + 1) ≤ n then k + 1 else natSqrtGo n k

/-- Integer square root. -/
def natSqrt (n : Nat) : Nat :=
  natSqrtGo n n

/-- Square root on nonnegative rationals, exact on perfect squares — every
concrete vector below is chosen with a perfect-square norm, so the model
agrees with the floating-point computation of the source there. -/
def ratSqrt (q : ℚ) : ℚ :=
  (natSqrt q.num.toNat : ℚ) / (natSqrt q.den : ℚ)

/-- Cosine similarity of a stored vector and the query vector, the
`sklearn.metrics.pairwise.cosine_similarity` entry for one row: zero-norm
vectors get similarity 0 (sklearn leaves a zero row unnormalized). -/
def cosSim (a q : List ℚ) : ℚ :=
  let na := ratSqrt (dotQ a a)
  let nq := ratSqrt (dotQ q q)
  if na * nq = 0 then 0 else dotQ a q / (na * nq)

/-- Similarity scores of every stored vector against the query, in store
order (`cosine_similarity(stored_embeddings, [q]).flatten()`). -/
def simsFor (vecs : List (List ℚ)) (q : List ℚ) : List ℚ :=
  vecs.map (fun v => cosSim v q)

/-- Comparator under which NumPy's insertion sort — the base case its
default introsort runs on small arrays — orders the index/score pairs:
ascending score, ties in ascending index order. -/
def simLe (a b : Nat × ℚ) : Prop :=
  a.2 < b.2 ∨ (a.2 = b.2 ∧ a.1 ≤ b.1)

instance : DecidableRel simLe := fun a b =>
  decidable_of_iff (a.2 < b.2 ∨ (a.2 = b.2 ∧ a.1 ≤ b.1)) Iff.rfl

instance : IsTotal (Nat × ℚ) simLe :=
  ⟨fun a b => by
    rcases lt_trichotomy a.2 b.2 with h | h | h
    · exact Or.inl (Or.inl h)
    · rcases Nat.le_total a.1 b.1 with h1 | h1
      · exact Or.inl (Or.inr ⟨h, h1⟩)
      · exact Or.inr (Or.inr ⟨h.symm, h1⟩)
    · exact Or.inr (Or.inl h)⟩

instance : IsTrans (Nat × ℚ) simLe :=
  ⟨fun a b c hab hbc => by
    rcases hab with h1 | ⟨e1, i1⟩
    · rcases hbc with h2 | ⟨e2, _⟩
      · exact Or.inl (h1.trans h2)
      · exact Or.inl (e2 ▸ h1)
    · rcases hbc with h2 | ⟨e2, i2⟩
      · exact Or.inl (e1 ▸ h2)
      · exact Or.inr ⟨e1.trans e2, i1.trans i2⟩⟩

/-- Index/score pairs of a score list, in index order. -/
def keyed (sims : List ℚ) : List (Nat × ℚ) :=
  (List.range sims.length).map (fun i => (i, sims.getD i 0))

/-- Model of `np.argsort(similarities)` for arrays below NumPy's
small-sort threshold, where the default introsort degenerates to a stable
insertion sort — exact for the two-vector counterexample below.  For larger
arrays NumPy documents its default sort as NOT stable and guarantees no
order among equal scores, so the universal retrieval theorem quantifies
over every admissible ascending ordering (`IsAscSortOf`) instead of this
function. -/
def argsortQ (sims : List ℚ) : List Nat :=
  (List.insertionSort simLe (keyed sims)).map (fun p => p.1)

/-- Specification satisfied by every output `np.argsort(similarities)` may
produce: a permutation of the index range along which the scores are
non-decreasing.  The default (non-stable) sort promises nothing about the
relative order of equal scores. -/
def IsAscSortOf (perm : List Nat) (sims : List ℚ) : Prop :=
  perm.Perm (List.range sims.length) ∧
    perm.Pairwise (fun i j => sims.getD i 0 ≤ sims.getD j 0)

/-- Model of `argsorted[-k:][::-1]` (the source fixes `k = 3`) applied to
whatever index order the sort produced: the last `k` entries, reversed. -/
def topKFrom (k : Nat) (sims : List ℚ) (perm : List Nat) : List Nat :=
  (perm.drop (sims.length - k)).reverse

/-- The retrieval selection `np.argsort(...)[-k:][::-1]` composed with the
small-array sort behavior. -/
def retrieveTopK (k : Nat) (sims : List ℚ) : List Nat :=
  topKFrom k sims (argsortQ sims)

/-- Outcome of the one embedding HTTP call a query makes. -/
inductive EmbedOutcome where
  | ok (embeddings : List (List ℚ))
  | exn
deriving DecidableEq

/-- Outcome of the one generation HTTP call a query makes:
a response carrying the `response` field, a response without it, or a
transport failure/timeout (`requests.exceptions.RequestException`). -/
inductive GenOutcome where
  | ok (response : List Char)
  | missingField
  | exn
deriving DecidableEq

/-- Model of `create_embedding(input_list)`: `None` when the input is empty
or the knowledge base is unloaded, `None` on a request exception, otherwise
the embeddings of the response. -/
def create_embedding (inputNonempty dfLoaded : Bool)
    (o : EmbedOutcome) : Option (List (List ℚ)) :=
  if !inputNonempty || !dfLoaded then none
  else
    match o with
    | .ok es => some es
    | .exn => none

/-- Model of `inference(prompt)`.  The second component counts the HTTP
calls issued (exactly one whenever the URL is configured — the source never
retries).  On a transport failure or timeout the function returns a fixed
apology string; on a response lacking the `response` field, a fixed error
string. -/
def inference (urlConfigured : Bool) (_prompt : List Char)
    (o : GenOutcome) : List Char × Nat :=
  if !urlConfigured then ("OLLAMA_URL is not configured.".data, 0)
  else
    match o with
    | .ok r => (r, 1)
    | .missingField => ("Error: No 'response' field in Ollama output.".data, 1)
    | .exn =>
      ("Sorry, I couldn't connect to the Ollama server or the request timed out.".data, 1)

/-- Row of the loaded DataFrame: one chunk embedding and its content. -/
structure DFRow where
  chunk_embedding : List ℚ
  content : List Char
deriving DecidableEq

/-- Prompt assembled by `perform_rag_retrieval` step 3 (the fixed
instruction block, the retrieved context, and the user query; the
instruction text itself never influences the modelled control flow). -/
def promptFor (context query : List Char) : List Char :=
  "You are an expert on the Azwaj (Wives of the Prophet). Your goal is to be highly accurate.".data
    ++ "\n\nContext:\n\n".data ++ context ++ "\n\nQuestion: ".data ++ query
    ++ "\n\nAnswer:\n".data

/-- Model of `perform_rag_retrieval(users_query)`: the sentinel string when
the knowledge base is unloaded; the sentinel string when embedding creation
fails; otherwise retrieval of the top 3 chunks by cosine similarity followed
by one generation call.  Every return value is a plain string — failure and
success share a type, exactly as in the source. -/
def perform_rag_retrieval (df : Option (List DFRow)) (query : List Char)
    (eo : EmbedOutcome) (go : GenOutcome) : List Char :=
  match df with
  | none => "The knowledge base is not loaded.".data
  | some rows =>
    match create_embedding true true eo with
    | none =>
      "Failed to create embedding. Is Ollama running and the bge-m3 model available?".data
    | some embs =>
      let qv := embs.headD []
      let sims := simsFor (rows.map (fun r => r.chunk_embedding)) qv
      let topIdx := retrieveTopK 3 sims
      let context :=
        List.intercalate "\n\n".data
          (topIdx.map (fun i => ((rows.getD i ⟨[], []⟩).content)))
      (inference true (promptFor context query) go).1

example : retrieveTopK 3 [(1 : ℚ), 1] = [1, 0] := by decide
example : retrieveTopK 2 [(1 : ℚ), 1, 0] = [1, 0] := by decide
example : natSqrt 25 = 5 := by decide

/-- Discord's message-length ceiling used by `azwaj_query`. -/
def MAX_CHARS : Nat := 2000

/-- Structural worker computing the consecutive slices
`[s[i:i+n] for i in range(0, len(s), n)]`: `k` is the remaining capacity of
the slice being collected in `cur` (reversed). -/
def chunksGo (n : Nat) (k : Nat) (cur : List Char) : List Char → List (List Char)
  | [] => if cur = [] then [] else [cur.reverse]
  | c :: rest =>
    match k with
    | 0 => cur.reverse :: chunksGo n (n - 1) [c] rest
    | k' + 1 => chunksGo n k' (c :: cur) rest

/-- Slices of at most `n` consecutive characters, in order. -/
def chunksEvery (n : Nat) (s : List Char) : List (List Char) :=
  chunksGo n n [] s

/-- Header line prepended to slice `i` of `total` by `azwaj_query`
(the first slice gets the longer `Detailed Response` header). -/
def partHeader (i total : Nat) : List Char :=
  if i = 0 then
    "**[Detailed Response - Part 1/".data ++ (Nat.repr total).data ++ "]**\n".data
  else
    "**[Part ".data ++ (Nat.repr (i + 1)).data ++ "/".data
      ++ (Nat.repr total).data ++ "]**\n".data

/-- Model of the send logic of `azwaj_query` (bot.py lines 36-56): the list
of messages sent for a final response, in order.  A response within the
ceiling is sent unchanged; a longer one is sent as header-prefixed slices
of at most `MAX_CHARS` characters. -/
def azwajMessages (s : List Char) : List (List Char) :=
  if MAX_CHARS < s.length then
    let cs := chunksEvery MAX_CHARS s
    cs.mapIdx (fun i c => partHeader i cs.length ++ c)
  else [s]

example : chunksEvery 3 "abcdefgh".data =
    ["abc".data, "def".data, "gh".data] := by decide
example : azwajMessages "hi".data = ["hi".data] := by decide

/-- Every chunk emitted by the packing loop stores the length of its
content. -/
theorem packGo_char_count (wn : List Char) (al : List (List Char))
    (ti : List Char) (maxS minS : Nat) :
    ∀ (sents : List (List Char)) (cur : List (List Char)) (curLen : Nat)
      (c : Chunk), c ∈ packGo wn al ti maxS minS cur curLen sents →
      c.char_count = c.content.length := by
  intro sents
  induction sents with
  | nil =>
    intro cur curLen c hc
    simp only [packGo] at hc
    split at hc
    · simp at hc
    · simp at hc
      subst hc
      rfl
  | cons s rest ih =>
    intro cur curLen c hc
    simp only [packGo] at hc
    split at hc
    · exact ih _ _ _ hc
    · split at hc
      · rcases List.mem_cons.mp hc with h | h
        · subst h; rfl
        · exact ih _ _ _ h
      · exact ih _ _ _ hc

/-- Chunks of a single section store the length of their content. -/
theorem chunksOfSection_char_count (maxS minS : Nat) (wn : List Char)
    (al : List (List Char)) (sec : TextSection) :
    ∀ c ∈ chunksOfSection maxS minS wn al sec,
      c.char_count = c.content.length := by
  intro c hc
  simp only [chunksOfSection] at hc
  split at hc
  · simp at hc
    subst hc
    rfl
  · exact packGo_char_count wn al sec.title maxS minS _ _ _ _ hc

/-- Claim C8: every chunk record produced by the chunking pipeline stores in
`char_count` exactly the character length of its `content`, in every branch
(small-section chunk, mid-section flushed chunk, final-fragment chunk). -/
theorem create_chunks_char_count (maxS minS : Nat) (text : List Char) :
    ∀ c ∈ create_chunks maxS minS text, c.char_count = c.content.length := by
  intro c hc
  simp only [create_chunks, List.mem_flatMap] at hc
  rcases hc with ⟨sec, _, hmem⟩
  exact chunksOfSection_char_count _ _ _ _ _ c hmem

/-- Witness for C8 on a concrete chapter: the first chunk of
`create_chunks 10 8 "aaaa. bbbbbb. c."`. -/
theorem create_chunks_char_count_witness :
    (Chunk.mk "Unknown".data [] "Introduction".data "aaaa. bbbbbb.".data 13).char_count
      = "aaaa. bbbbbb.".data.length :=
  create_chunks_char_count 10 8 "aaaa. bbbbbb. c.".data _ (by decide)

/-- A chunk whose `wife_name` is neither `Umm` nor `Unknown` passes through
the correction pass unchanged. -/
theorem fixChunk_wifeGuard_false (c : Chunk)
    (h1 : c.wife_name ≠ "Umm".data) (h2 : c.wife_name ≠ "Unknown".data) :
    fixChunk c = c := by
  unfold fixChunk
  simp [h1, h2]

/-- The single-chunk correction is idempotent: every rewrite installs a
`wife_name` that no guard of the pass matches again. -/
theorem fixChunk_idem (c : Chunk) : fixChunk (fixChunk c) = fixChunk c := by
  by_cases hg : c.wife_name = "Umm".data ∨ c.wife_name = "Unknown".data
  · by_cases s1 : substrIn "umm salamah".data (pyLower c.content) = true
    · have e : fixChunk c =
          { c with wife_name := "Umm Salamah Hind Bint Umayyah".data } := by
        unfold fixChunk
        rcases hg with h | h <;> simp [h, s1]
      rw [e]
      exact fixChunk_wifeGuard_false _ (of_decide_eq_false rfl)
        (of_decide_eq_false rfl)
    · by_cases s2 : substrIn "umm habibah".data (pyLower c.content) = true
      · have e : fixChunk c =
            { c with wife_name := "Umm Habibah Ramlah Bint Abu Sufyan".data } := by
          unfold fixChunk
          rcases hg with h | h <;> simp [h, s1, s2]
        rw [e]
        exact fixChunk_wifeGuard_false _ (of_decide_eq_false rfl)
          (of_decide_eq_false rfl)
      · by_cases s3 : substrIn "conclusion".data (pyLower c.content) = true
        · have e : fixChunk c =
              { c with wife_name := "Conclusion".data,
                       sectionTitle := "Conclusion".data } := by
            unfold fixChunk
            rcases hg with h | h <;> simp [h, s1, s2, s3]
          rw [e]
          exact fixChunk_wifeGuard_false _ (of_decide_eq_false rfl)
            (of_decide_eq_false rfl)
        · have e : fixChunk c = c := by
            unfold fixChunk
            rcases hg with h | h <;> simp [h, s1, s2, s3]
          rw [e, e]
  · push_neg at hg
    have e := fixChunk_wifeGuard_false c hg.1 hg.2
    rw [e, e]

/-- Claim C6: the post-processing correction pass is idempotent — applying
it twice to any chunk collection yields exactly the collection produced by
one application (all fields, in particular `wife_name` and the section
title, agree chunk by chunk). -/
theorem postProcess_idem (cs : List Chunk) :
    postProcess (postProcess cs) = postProcess cs := by
  unfold postProcess
  rw [List.map_map]
  exact List.map_congr_left (fun c _ => fixChunk_idem c)

/-- Counterexample to claim C7 as stated: the candidate `"a b c defg"` has
stripped length 10 with exactly 7 alphabetic characters — exactly 70
percent, so the claimed acceptance condition ("at least 70%") holds — yet
the filter rejects it (the source comparison `sum > len * 0.7` is strict). -/
theorem validAlias_strict_counterexample :
    validAlias "a b c defg".data = false ∧
    3 ≤ (pyStrip "a b c defg".data).length ∧
    (pyStrip "a b c defg".data).length ≤ 20 ∧
    ((7 : ℚ) / 10) * (pyStrip "a b c defg".data).length ≤
      (((pyStrip "a b c defg".data).filter Char.isAlpha).length : ℚ) := by
  refine ⟨by decide, by decide, by decide, ?_⟩
  show ((7 : ℚ) / 10) * ((10 : ℕ) : ℚ) ≤ ((7 : ℕ) : ℚ)
  norm_num

/-- Claim C7 (amended): a captured alias candidate is accepted iff its
stripped length lies between 3 and 20 inclusive and STRICTLY more than 70
percent of its characters are alphabetic (so a 5-character fully alphabetic
candidate is accepted and a 21-character or a below-70-percent candidate is
rejected); the alias set of `extract_wife_info` carries no duplicates. -/
theorem validAlias_iff_and_dedup :
    (∀ cand : List Char, validAlias cand = true ↔
      (3 ≤ (pyStrip cand).length ∧ (pyStrip cand).length ≤ 20 ∧
        ((7 : ℚ) / 10) * (pyStrip cand).length <
          (((pyStrip cand).filter Char.isAlpha).length : ℚ)))
    ∧ (∀ text : List Char, (extract_wife_info text).aliases.Nodup) := by
  constructor
  · intro cand
    unfold validAlias
    simp only [Bool.and_eq_true, decide_eq_true_eq]
    constructor
    · rintro ⟨⟨h1, h2⟩, h3⟩
      refine ⟨h1, h2, ?_⟩
      have h : (7 * (pyStrip cand).length : ℚ) <
          10 * ((pyStrip cand).filter Char.isAlpha).length := by
        exact_mod_cast h3
      linarith
    · rintro ⟨h1, h2, h3⟩
      refine ⟨⟨h1, h2⟩, ?_⟩
      have h : (7 * (pyStrip cand).length : ℚ) <
          10 * ((pyStrip cand).filter Char.isAlpha).length := by linarith
      exact_mod_cast h
  · intro text
    unfold extract_wife_info
    exact List.nodup_dedup _

/-- Witness for C7 (amended) at the concrete candidate `"abcde"` named by
the spec: 5 characters, fully alphabetic, accepted. -/
theorem validAlias_iff_witness : validAlias "abcde".data = true := by
  refine (validAlias_iff_and_dedup.1 "abcde".data).mpr ⟨by decide, by decide, ?_⟩
  show ((7 : ℚ) / 10) * ((5 : ℕ) : ℚ) < ((5 : ℕ) : ℚ)
  norm_num

/-- Counterexample to claim C4 as stated: with nothing loaded the search
path returns the fixed sentinel string as an ordinary return value, and a
successful run (index loaded, generation succeeds) can return the identical
string — so the caller receives no distinguishable `EmptyIndex` error
condition. -/
theorem perform_rag_unloaded_counterexample :
    perform_rag_retrieval none "q".data EmbedOutcome.exn GenOutcome.exn
        = "The knowledge base is not loaded.".data ∧
    perform_rag_retrieval (some [⟨[1], "ctx".data⟩]) "q".data
        (EmbedOutcome.ok [[1]])
        (GenOutcome.ok "The knowledge base is not loaded.".data)
      = "The knowledge base is not loaded.".data :=
  ⟨rfl, rfl⟩

/-- Claim C4 (amended): when the knowledge base is not loaded,
`perform_rag_retrieval` answers the fixed sentinel string
`The knowledge base is not loaded.` as a plain string return value of the
same type as a successful answer (it neither raises a typed `EmptyIndex`
error nor returns an empty result list), for every query and every outcome
of the external calls. -/
theorem perform_rag_unloaded_sentinel :
    ∀ (query : List Char) (eo : EmbedOutcome) (go : GenOutcome),
      perform_rag_retrieval none query eo go
        = "The knowledge base is not loaded.".data :=
  fun _ _ _ => rfl

/-- Counterexample to claim C9 as stated: on a transport failure or timeout
of the generation call the caller receives exactly the user-facing apology
string (not a typed error), and a successful generation can return the
identical string. -/
theorem perform_rag_apology_counterexample :
    perform_rag_retrieval (some [⟨[1], "ctx".data⟩]) "q".data
        (EmbedOutcome.ok [[1]]) GenOutcome.exn
      = "Sorry, I couldn't connect to the Ollama server or the request timed out.".data ∧
    perform_rag_retrieval (some [⟨[1], "ctx".data⟩]) "q".data
        (EmbedOutcome.ok [[1]])
        (GenOutcome.ok "Sorry, I couldn't connect to the Ollama server or the request timed out.".data)
      = "Sorry, I couldn't connect to the Ollama server or the request timed out.".data :=
  ⟨rfl, rfl⟩

/-- Claim C9 (amended): when an external call fails or times out, the query
handler returns a fixed sentinel string — the apology string for a
generation transport failure, a fixed error string for a response missing
the `response` field, a fixed message for an embedding failure — as an
ordinary string, making exactly one generation HTTP attempt (the second
component of `inference`) and no automatic retry. -/
theorem perform_rag_failure_sentinels :
    (∀ p : List Char, inference true p GenOutcome.exn =
      ("Sorry, I couldn't connect to the Ollama server or the request timed out.".data, 1))
    ∧ (∀ p : List Char, inference true p GenOutcome.missingField =
      ("Error: No 'response' field in Ollama output.".data, 1))
    ∧ (∀ (df : List DFRow) (q : List Char) (go : GenOutcome),
        create_embedding true true EmbedOutcome.exn = none ∧
        perform_rag_retrieval (some df) q EmbedOutcome.exn go =
          "Failed to create embedding. Is Ollama running and the bge-m3 model available?".data) :=
  ⟨fun _ => rfl, fun _ => rfl, fun _ _ _ => ⟨rfl, rfl⟩⟩

/-- Reference form of the slicing
`[s[i:i+n] for i in range(0, len(s), n)]` used to reason about
`chunksEvery`. -/
def chunksSpec (n : Nat) : List Char → List (List Char)
  | [] => []
  | c :: rest => (c :: rest).take n :: chunksSpec n (rest.drop (n - 1))
termination_by s => s.length
decreasing_by
  simp only [List.length_drop, List.length_cons]
  omega

/-- The structural worker agrees with the reference slicing. -/
theorem chunksGo_eq_spec (n : Nat) (hn : 1 ≤ n) :
    ∀ (s : List Char) (k : Nat) (cur : List Char),
      chunksGo n k cur s =
        if cur = [] ∧ s = [] then []
        else (cur.reverse ++ s.take k) :: chunksSpec n (s.drop k) := by
  intro s
  induction s with
  | nil =>
    intro k cur
    by_cases h : cur = [] <;> simp [chunksGo, chunksSpec, h]
  | cons c rest ih =>
    intro k cur
    match k with
    | 0 =>
      obtain ⟨m, rfl⟩ : ∃ m, n = m + 1 := ⟨n - 1, by omega⟩
      simp only [chunksGo, ih, List.reverse_singleton, List.take_zero,
        List.drop_zero, List.append_nil]
      simp [chunksSpec]
    | k' + 1 =>
      simp only [chunksGo, ih]
      simp [List.take_succ_cons, List.drop_succ_cons]

/-- The slices cover the input exactly, in order. -/
theorem chunksSpec_flatten (n : Nat) (hn : 1 ≤ n) :
    ∀ s : List Char, (chunksSpec n s).flatten = s := by
  intro s
  induction s using chunksSpec.induct n with
  | case1 => simp [chunksSpec]
  | case2 c rest ih =>
    rw [chunksSpec]
    simp only [List.flatten_cons, ih]
    have h : (c :: rest).drop n = rest.drop (n - 1) := by
      obtain ⟨m, rfl⟩ : ∃ m, n = m + 1 := ⟨n - 1, by omega⟩
      simp [List.drop_succ_cons]
    rw [← h, List.take_append_drop]

/-- Every slice has at most `n` characters. -/
theorem chunksSpec_le (n : Nat) :
    ∀ s : List Char, ∀ c ∈ chunksSpec n s, c.length ≤ n := by
  intro s
  induction s using chunksSpec.induct n with
  | case1 => simp [chunksSpec]
  | case2 c rest ih =>
    intro x hx
    rw [chunksSpec] at hx
    rcases List.mem_cons.mp hx with h | h
    · subst h
      simp
    · exact ih x h

/-- The number of slices is the ceiling of `length / n`. -/
theorem chunksSpec_length (n : Nat) (hn : 1 ≤ n) :
    ∀ s : List Char, (chunksSpec n s).length = (s.length + n - 1) / n := by
  intro s
  induction s using chunksSpec.induct n with
  | case1 =>
    simp [chunksSpec, Nat.div_eq_of_lt (by omega : n - 1 < n)]
  | case2 c rest ih =>
    rw [chunksSpec]
    simp only [List.length_drop] at ih
    simp only [List.length_cons, ih, List.length_drop]
    rcases Nat.lt_or_ge rest.length n with h | h
    · have h1 : rest.length - (n - 1) = 0 := by omega
      have h2 : (n - 1) / n = 0 := Nat.div_eq_of_lt (by omega)
      have h3 : (rest.length + 1 + n - 1) / n = 1 :=
        Nat.div_eq_of_lt_le (by omega) (by omega)
      rw [h1, h3]
      simp [h2]
    · have h1 : rest.length - (n - 1) + n - 1 = rest.length := by omega
      have h2 : rest.length + 1 + n - 1 = rest.length + n := by omega
      rw [h1, h2, Nat.add_div_right _ (by omega)]

/-- The structural slicer agrees with the reference slicing. -/
theorem chunksEvery_eq_spec (n : Nat) (hn : 1 ≤ n) (s : List Char) :
    chunksEvery n s = chunksSpec n s := by
  rw [chunksEvery, chunksGo_eq_spec n hn]
  cases s with
  | nil => simp [chunksSpec]
  | cons c rest =>
    obtain ⟨m, rfl⟩ : ∃ m, n = m + 1 := ⟨n - 1, by omega⟩
    simp [chunksSpec, List.drop_succ_cons, List.take_succ_cons]

/-- Claim C10: a final response of at most 2000 characters is sent unchanged
as a single message; a longer one is split into `ceil(length / 2000)`
consecutive slices of at most 2000 characters whose concatenation is exactly
the original response, and every slice is sent prefixed with its
part-number header line. -/
theorem azwajMessages_correct (s : List Char) :
    (s.length ≤ MAX_CHARS → azwajMessages s = [s]) ∧
    (MAX_CHARS < s.length →
      (chunksEvery MAX_CHARS s).length = (s.length + MAX_CHARS - 1) / MAX_CHARS ∧
      (∀ c ∈ chunksEvery MAX_CHARS s, c.length ≤ MAX_CHARS) ∧
      (chunksEvery MAX_CHARS s).flatten = s ∧
      azwajMessages s = (chunksEvery MAX_CHARS s).mapIdx
        (fun i c => partHeader i (chunksEvery MAX_CHARS s).length ++ c)) := by
  have hn : 1 ≤ MAX_CHARS := by decide
  constructor
  · intro h
    rw [azwajMessages, if_neg (by omega)]
  · intro h
    refine ⟨?_, ?_, ?_, ?_⟩
    · rw [chunksEvery_eq_spec _ hn, chunksSpec_length _ hn]
    · rw [chunksEvery_eq_spec _ hn]
      exact chunksSpec_le _ s
    · rw [chunksEvery_eq_spec _ hn]
      exact chunksSpec_flatten _ hn s
    · rw [azwajMessages, if_pos h]

/-- Witness for C10 at a concrete 2001-character response: it is split into
two slices whose count matches the ceiling formula. -/
theorem azwajMessages_correct_witness :
    (chunksEvery MAX_CHARS (List.replicate 2001 'a')).length =
      ((List.replicate 2001 'a').length + MAX_CHARS - 1) / MAX_CHARS :=
  ((azwajMessages_correct (List.replicate 2001 'a')).2
    (by rw [List.length_replicate]; decide)).1

/-- The sorted key list underlying `argsortQ`. -/
def sortedKeyed (sims : List ℚ) : List (Nat × ℚ) :=
  List.insertionSort simLe (keyed sims)

/-- Every key pair is an index below `sims.length` together with the score
stored at that index. -/
theorem mem_keyed {sims : List ℚ} {p : Nat × ℚ} (hp : p ∈ keyed sims) :
    p.1 < sims.length ∧ p.2 = sims.getD p.1 0 := by
  simp only [keyed, List.mem_map, List.mem_range] at hp
  rcases hp with ⟨i, hi, rfl⟩
  exact ⟨hi, rfl⟩

/-- The sorted key list is a permutation of the keys. -/
theorem sortedKeyed_perm (sims : List ℚ) :
    (sortedKeyed sims).Perm (keyed sims) :=
  List.perm_insertionSort simLe (keyed sims)

/-- Membership transfer from the sorted key list. -/
theorem mem_sortedKeyed {sims : List ℚ} {p : Nat × ℚ}
    (hp : p ∈ sortedKeyed sims) : p.1 < sims.length ∧ p.2 = sims.getD p.1 0 :=
  mem_keyed ((sortedKeyed_perm sims).mem_iff.mp hp)

/-- The indices of the sorted key list are a permutation of the index
range. -/
theorem argsortQ_perm_range (sims : List ℚ) :
    (argsortQ sims).Perm (List.range sims.length) := by
  have h := (sortedKeyed_perm sims).map (fun p : Nat × ℚ => p.1)
  have e : (keyed sims).map (fun p : Nat × ℚ => p.1) = List.range sims.length := by
    simp [keyed, List.map_map, Function.comp_def]
  rw [e] at h
  exact h

/-- The small-array argsort model is one admissible ascending ordering. -/
theorem argsortQ_ascSortOf (sims : List ℚ) :
    IsAscSortOf (argsortQ sims) sims := by
  refine ⟨argsortQ_perm_range sims, ?_⟩
  have hs : List.Pairwise simLe (sortedKeyed sims) :=
    List.sorted_insertionSort simLe (keyed sims)
  have hmap : List.Pairwise
      (fun a b : Nat × ℚ => sims.getD a.1 0 ≤ sims.getD b.1 0)
      (sortedKeyed sims) := by
    refine hs.imp_of_mem (fun {a b} ha hb hab => ?_)
    have ha' := mem_sortedKeyed ha
    have hb' := mem_sortedKeyed hb
    rcases hab with h | ⟨he, _⟩
    · rw [← ha'.2, ← hb'.2]
      exact le_of_lt h
    · rw [← ha'.2, ← hb'.2]
      exact le_of_eq he
  rw [show argsortQ sims = (sortedKeyed sims).map (fun p => p.1) from rfl,
    List.pairwise_map]
  exact hmap

/-- Properties every admissible run of the top-k selection has: exactly
`min k n` indices, non-increasing score order, and every kept score at
least every rejected score.  Nothing is asserted about the relative order
of equal scores, which the non-stable sort leaves unspecified. -/
theorem topKFrom_spec (k : Nat) (sims : List ℚ) (perm : List Nat)
    (hperm : IsAscSortOf perm sims) :
    (topKFrom k sims perm).length = min k sims.length ∧
    List.Chain' (fun i j => sims.getD j 0 ≤ sims.getD i 0)
      (topKFrom k sims perm) ∧
    (∀ i ∈ topKFrom k sims perm, ∀ j, j < sims.length →
      j ∉ topKFrom k sims perm → sims.getD j 0 ≤ sims.getD i 0) := by
  obtain ⟨hp, hsorted⟩ := hperm
  have hlen : perm.length = sims.length :=
    hp.length_eq.trans (List.length_range _)
  refine ⟨?_, ?_, ?_⟩
  · simp only [topKFrom, List.length_reverse, List.length_drop, hlen]
    omega
  · refine List.Pairwise.chain' ?_
    rw [topKFrom, List.pairwise_reverse]
    exact hsorted.sublist (List.drop_sublist _ _)
  · intro i hi j hj hj2
    rw [topKFrom, List.mem_reverse] at hi hj2
    have hjtake : j ∈ perm.take (sims.length - k) := by
      have hall : j ∈ perm := hp.mem_iff.mpr (List.mem_range.mpr hj)
      rw [← List.take_append_drop (sims.length - k) perm,
        List.mem_append] at hall
      rcases hall with h | h
      · exact h
      · exact absurd h hj2
    have hpw := hsorted
    rw [← List.take_append_drop (sims.length - k) perm,
      List.pairwise_append] at hpw
    exact hpw.2.2 j hjtake i hi

/-- Claim C1 (amended): for every loaded index of stored vectors, every
query vector, and every index ordering the (non-stable) `np.argsort` may
produce, the selection `argsorted[-k:][::-1]` returns exactly `min k n`
indices in non-increasing cosine-similarity order, and every returned
index's similarity is at least that of every index not returned.  The
relative order of equal-similarity indices is NOT a guarantee of the
program — NumPy's default sort is not stable — and on indexes small enough
for its insertion sort the observed tie order is higher id first, never the
originally claimed lower id first. -/
theorem retrieveTopK_spec (vecs : List (List ℚ)) (q : List ℚ) (k : Nat)
    (perm : List Nat) (hperm : IsAscSortOf perm (simsFor vecs q)) :
    (topKFrom k (simsFor vecs q) perm).length = min k vecs.length ∧
    List.Chain'
      (fun i j => (simsFor vecs q).getD j 0 ≤ (simsFor vecs q).getD i 0)
      (topKFrom k (simsFor vecs q) perm) ∧
    (∀ i ∈ topKFrom k (simsFor vecs q) perm, ∀ j, j < vecs.length →
      j ∉ topKFrom k (simsFor vecs q) perm →
      (simsFor vecs q).getD j 0 ≤ (simsFor vecs q).getD i 0) := by
  have hlen : (simsFor vecs q).length = vecs.length := by simp [simsFor]
  obtain ⟨h1, h2, h3⟩ := topKFrom_spec k (simsFor vecs q) perm hperm
  refine ⟨by rw [h1, hlen], h2, ?_⟩
  intro i hi j hj hj2
  exact h3 i hi j (by omega) hj2

/-- Square root of 25 in the similarity model. -/
theorem ratSqrt_25 : ratSqrt 25 = 5 := by
  rw [ratSqrt]
  norm_num [show natSqrt (Int.toNat 25) = 5 from by decide,
    show natSqrt 1 = 1 from by decide]

/-- Square root of 100 in the similarity model. -/
theorem ratSqrt_100 : ratSqrt 100 = 10 := by
  rw [ratSqrt]
  norm_num [show natSqrt (Int.toNat 100) = 10 from by decide,
    show natSqrt 1 = 1 from by decide]

/-- Cosine similarity of `(3,4)` with itself is exactly 1. -/
theorem cosSim_34_34 : cosSim [(3 : ℚ), 4] [3, 4] = 1 := by
  have d : dotQ [(3 : ℚ), 4] [3, 4] = 25 := by norm_num [dotQ]
  rw [cosSim, d, ratSqrt_25]
  norm_num

/-- Cosine similarity of `(6,8)` with `(3,4)` is exactly 1 (parallel
vectors of different norms). -/
theorem cosSim_68_34 : cosSim [(6 : ℚ), 8] [3, 4] = 1 := by
  have d1 : dotQ [(6 : ℚ), 8] [6, 8] = 100 := by norm_num [dotQ]
  have d2 : dotQ [(3 : ℚ), 4] [3, 4] = 25 := by norm_num [dotQ]
  have d3 : dotQ [(6 : ℚ), 8] [3, 4] = 50 := by norm_num [dotQ]
  rw [cosSim, d1, d2, d3, ratSqrt_25, ratSqrt_100]
  norm_num

/-- Cosine similarity of `(4,-3)` with `(3,4)` is exactly 0 (orthogonal). -/
theorem cosSim_4m3_34 : cosSim [(4 : ℚ), -3] [3, 4] = 0 := by
  have d1 : dotQ [(4 : ℚ), -3] [4, -3] = 25 := by norm_num [dotQ]
  have d2 : dotQ [(3 : ℚ), 4] [3, 4] = 25 := by norm_num [dotQ]
  have d3 : dotQ [(4 : ℚ), -3] [3, 4] = 0 := by norm_num [dotQ]
  rw [cosSim, d1, d2, d3, ratSqrt_25]
  norm_num

/-- Counterexample to claim C1 as stated: two stored vectors with identical
cosine similarity to the query (ids 0 and 1, both similarity 1).  On a
two-element array NumPy's argsort runs its insertion-sort base case, which
is stable, so here the program's behavior is exactly the small-array model:
the search returns `[1, 0]` — the HIGHER id first — contradicting the
claimed lower-id-first tie-break. -/
theorem retrieveTopK_tie_counterexample :
    cosSim [(3 : ℚ), 4] [3, 4] = cosSim [(6 : ℚ), 8] [3, 4] ∧
    retrieveTopK 3 (simsFor [[(3 : ℚ), 4], [6, 8]] [3, 4]) = [1, 0] := by
  have hsims : simsFor [[(3 : ℚ), 4], [6, 8]] [3, 4] = [1, 1] := by
    simp only [simsFor, List.map_cons, List.map_nil, cosSim_34_34, cosSim_68_34]
  refine ⟨cosSim_34_34.trans cosSim_68_34.symm, ?_⟩
  rw [hsims]
  decide

/-- Witness for C1 (amended) at three stored vectors, `k = 2`, and the
ascending ordering `[2, 0, 1]` (the one NumPy's small-array insertion sort
would produce): the kept id 1 scores at least the rejected id 2. -/
theorem retrieveTopK_spec_witness :
    (simsFor [[(3 : ℚ), 4], [6, 8], [4, -3]] [3, 4]).getD 2 0 ≤
      (simsFor [[(3 : ℚ), 4], [6, 8], [4, -3]] [3, 4]).getD 1 0 := by
  have hsims : simsFor [[(3 : ℚ), 4], [6, 8], [4, -3]] [3, 4] = [1, 1, 0] := by
    simp only [simsFor, List.map_cons, List.map_nil, cosSim_34_34, cosSim_68_34,
      cosSim_4m3_34]
  have hperm :
      IsAscSortOf [2, 0, 1] (simsFor [[(3 : ℚ), 4], [6, 8], [4, -3]] [3, 4]) := by
    unfold IsAscSortOf
    rw [hsims]
    exact ⟨by decide, by decide⟩
  refine (retrieveTopK_spec [[(3 : ℚ), 4], [6, 8], [4, -3]] [3, 4] 2
    [2, 0, 1] hperm).2.2 1 ?_ 2 (by norm_num) ?_
  · rw [hsims]
    decide
  · rw [hsims]
    decide

/-- Appending one more piece to a non-empty join adds the separator and the
piece. -/
theorem joinSp_append_singleton :
    ∀ (xs : List (List Char)) (x : List Char), xs ≠ [] →
      joinSp (xs ++ [x]) = joinSp xs ++ ' ' :: x := by
  intro xs
  induction xs with
  | nil => intro x h; cases h rfl
  | cons y ys ih =>
    intro x _
    cases ys with
    | nil => simp [joinSp]
    | cons z zs =>
      have h2 := ih x (by simp)
      calc joinSp (y :: z :: zs ++ [x])
          = y ++ ' ' :: joinSp (z :: zs ++ [x]) := rfl
        _ = y ++ ' ' :: (joinSp (z :: zs) ++ ' ' :: x) := by rw [h2]
        _ = joinSp (y :: z :: zs) ++ ' ' :: x := by
            simp [joinSp, List.append_assoc]

/-- The running length of the packer never exceeds the joined buffer length
by more than one, so a flush that requires `minS ≤ running` emits a chunk of
at least `minS - 1` characters; `dropLast` excludes only the final fragment
of the section. -/
theorem packGo_dropLast_min (wn : List Char) (al : List (List Char))
    (ti : List Char) (maxS minS : Nat) :
    ∀ (sents : List (List Char)) (cur : List (List Char)) (curLen : Nat),
      (cur = [] → curLen = 0) → curLen ≤ (joinSp cur).length + 1 →
      ∀ c ∈ (packGo wn al ti maxS minS cur curLen sents).dropLast,
        minS - 1 ≤ c.content.length := by
  intro sents
  induction sents with
  | nil =>
    intro cur curLen _ _ c hc
    simp only [packGo] at hc
    split at hc <;> simp at hc
  | cons s rest ih =>
    intro cur curLen h0 h1 c hc
    simp only [packGo] at hc
    split at hc
    · exact ih cur curLen h0 h1 c hc
    · next hs' =>
      split at hc
      · next hcond =>
        simp only [Bool.and_eq_true, decide_eq_true_eq] at hcond
        have h0' : [pyStrip s] = ([] : List (List Char)) → (pyStrip s).length = 0 := by
          intro h; cases h
        have h1' : (pyStrip s).length ≤ (joinSp [pyStrip s]).length + 1 := by
          simp [joinSp]
        cases h2 : packGo wn al ti maxS minS [pyStrip s] (pyStrip s).length rest with
        | nil =>
          rw [h2] at hc
          simp at hc
        | cons d ds =>
          rw [h2] at hc
          rw [show (⟨wn, al, ti, joinSp cur, (joinSp cur).length⟩ :: d :: ds).dropLast
              = ⟨wn, al, ti, joinSp cur, (joinSp cur).length⟩ :: (d :: ds).dropLast
            from rfl] at hc
          rcases List.mem_cons.mp hc with rfl | hc'
          · show minS - 1 ≤ (joinSp cur).length
            omega
          · have h3 := ih [pyStrip s] (pyStrip s).length h0' h1' c
            rw [h2] at h3
            exact h3 hc'
      · have h0' : cur ++ [pyStrip s] = [] → curLen + (pyStrip s).length + 1 = 0 := by
          intro h
          exact absurd h (by simp)
        have h1' : curLen + (pyStrip s).length + 1 ≤
            (joinSp (cur ++ [pyStrip s])).length + 1 := by
          by_cases hcur : cur = []
          · subst hcur
            have h00 := h0 rfl
            subst h00
            simp [joinSp]
          · rw [joinSp_append_singleton cur _ hcur]
            simp only [List.length_append, List.length_cons]
            omega
        exact ih _ _ h0' h1' c hc

/-- A packing run over a buffer or sentence list that still holds text
always emits at least one chunk — the final buffer is never dropped. -/
theorem packGo_ne_nil (wn : List Char) (al : List (List Char))
    (ti : List Char) (maxS minS : Nat) :
    ∀ (sents : List (List Char)) (cur : List (List Char)) (curLen : Nat),
      (cur ≠ [] ∨ ∃ s ∈ sents, pyStrip s ≠ []) →
      packGo wn al ti maxS minS cur curLen sents ≠ [] := by
  intro sents
  induction sents with
  | nil =>
    intro cur curLen h
    rcases h with h | ⟨s, hs, _⟩
    · simp only [packGo]
      rw [if_neg h]
      simp
    · simp at hs
  | cons s rest ih =>
    intro cur curLen h
    simp only [packGo]
    split
    · next hs' =>
      apply ih
      rcases h with h | ⟨t, ht, hne⟩
      · exact Or.inl h
      · rcases List.mem_cons.mp ht with rfl | ht'
        · exact absurd hs' hne
        · exact Or.inr ⟨t, ht', hne⟩
    · split
      · simp
      · apply ih
        exact Or.inl (by simp)

/-- Claim C3 (amended): in the sentence chunker every chunk flushed before
the end of its section has content length at least `min_chunk_size - 1`
(the running length counts one phantom separator, so a flush guarded by
`running >= min_chunk_size` can emit exactly `min_chunk_size - 1`
characters); only the last chunk of a section may fall below that bound,
and a section that still holds text always emits its final buffer — it is
never dropped. -/
theorem create_chunks_min_flush (maxS minS : Nat) (text : List Char) :
    ∀ sec ∈ split_into_sections text,
      (∀ c ∈ (chunksOfSection maxS minS
          ((extract_wife_info text).wife_name.getD "Unknown".data)
          (extract_wife_info text).aliases sec).dropLast,
        minS - 1 ≤ c.content.length) ∧
      ((∃ s ∈ splitSentences (joinSp sec.paras), pyStrip s ≠ []) →
        chunksOfSection maxS minS
          ((extract_wife_info text).wife_name.getD "Unknown".data)
          (extract_wife_info text).aliases sec ≠ []) := by
  intro sec _
  constructor
  · intro c hc
    rw [chunksOfSection] at hc
    split at hc
    · simp at hc
    · exact packGo_dropLast_min _ _ sec.title maxS minS _ [] 0
        (fun _ => rfl) (by simp [joinSp]) c hc
  · rintro ⟨s, hs, hne⟩
    rw [chunksOfSection]
    split
    · simp
    · exact packGo_ne_nil _ _ sec.title maxS minS _ [] 0 (Or.inr ⟨s, hs, hne⟩)

/-- Counterexample to claim C3 as stated: with `max = 10`, `min = 8`, the
chapter `"aaaaaa. bbbb."` is packed into two chunks of lengths 7 and 5; the
first is flushed before the end of the section (it is not the last chunk)
yet its length 7 is BELOW `min_chunk_size = 8` — the flush guard tests the
running length, which overcounts the joined buffer by one. -/
theorem create_chunks_min_counterexample :
    (create_chunks 10 8 "aaaaaa. bbbb.".data).map (fun c => c.content.length)
        = [7, 5] ∧ 7 < 8 :=
  ⟨by decide, by decide⟩

/-- Witness for C3 (amended) on the same concrete section: the flushed
first chunk has length exactly `min_chunk_size - 1 = 7`. -/
theorem create_chunks_min_flush_witness :
    8 - 1 ≤ (Chunk.mk "Unknown".data [] "Introduction".data
      "aaaaaa.".data 7).content.length :=
  (create_chunks_min_flush 10 8 "aaaaaa. bbbb.".data
    ⟨"Introduction".data, ["aaaaaa. bbbb.".data]⟩ (by decide)).1 _ (by decide)

/-- Every buffer element occurs inside the joined buffer. -/
theorem mem_infix_joinSp :
    ∀ (cur : List (List Char)) (x : List Char), x ∈ cur → x <:+: joinSp cur := by
  intro cur
  induction cur with
  | nil => intro x hx; simp at hx
  | cons y ys ih =>
    intro x hx
    cases ys with
    | nil =>
      simp at hx
      subst hx
      simp [joinSp]
    | cons z zs =>
      rcases List.mem_cons.mp hx with rfl | hx'
      · exact ⟨[], ' ' :: joinSp (z :: zs), rfl⟩
      · exact (ih x hx').trans ⟨y ++ [' '], [], by simp [joinSp]⟩

/-- Size invariant of the packing loop: every emitted chunk fits in
`maxS + 1` characters unless it contains a single (stripped) sentence of
length at least `maxS - minS + 2` — a sentence absorbed while the running
length was still below `minS`, or a lone oversized sentence. -/
theorem packGo_max_bound (wn : List Char) (al : List (List Char))
    (ti : List Char) (maxS minS : Nat) (hms : minS ≤ maxS)
    (P : List Char → Prop) :
    ∀ (sents : List (List Char)) (cur : List (List Char)) (curLen : Nat),
      (∀ s ∈ sents, P (pyStrip s)) →
      (∀ x ∈ cur, P x) →
      (cur = [] → curLen = 0) →
      (joinSp cur).length ≤ curLen →
      curLen ≤ (joinSp cur).length + 1 →
      ((joinSp cur).length ≤ maxS + 1 ∨
        ∃ x ∈ cur, maxS - minS + 2 ≤ x.length) →
      ∀ c ∈ packGo wn al ti maxS minS cur curLen sents,
        c.content.length ≤ maxS + 1 ∨
          ∃ x, P x ∧ x <:+: c.content ∧ maxS - minS + 2 ≤ x.length := by
  intro sents
  induction sents with
  | nil =>
    intro cur curLen _ hsub _ _ _ hD c hc
    simp only [packGo] at hc
    split at hc
    · simp at hc
    · simp only [List.mem_singleton] at hc
      subst hc
      rcases hD with h | ⟨x, hx, hlen⟩
      · exact Or.inl h
      · exact Or.inr ⟨x, hsub x hx, mem_infix_joinSp cur x hx, hlen⟩
  | cons s rest ih =>
    intro cur curLen hP hsub h0 hlo hhi hD c hc
    simp only [packGo] at hc
    split at hc
    · exact ih cur curLen (fun t ht => hP t (List.mem_cons_of_mem s ht))
        hsub h0 hlo hhi hD c hc
    · next hs' =>
      split at hc
      · next hcond =>
        simp only [Bool.and_eq_true, decide_eq_true_eq] at hcond
        rcases List.mem_cons.mp hc with rfl | hc'
        · rcases hD with h | ⟨x, hx, hlen⟩
          · exact Or.inl h
          · exact Or.inr ⟨x, hsub x hx, mem_infix_joinSp cur x hx, hlen⟩
        · refine ih [pyStrip s] (pyStrip s).length
            (fun t ht => hP t (List.mem_cons_of_mem s ht))
            (fun x hx => by
              rcases List.mem_singleton.mp hx with rfl
              exact hP s (List.mem_cons_self s rest))
            (by intro h; cases h) (by simp [joinSp]) (by simp [joinSp]) ?_ c hc'
          by_cases hbig : (pyStrip s).length ≤ maxS + 1
          · exact Or.inl (by simpa [joinSp] using hbig)
          · exact Or.inr ⟨pyStrip s, List.mem_singleton_self _, by omega⟩
      · next hcond =>
        simp only [Bool.and_eq_true, decide_eq_true_eq, not_and, Nat.not_lt,
          Nat.not_le] at hcond
        have hsub' : ∀ x ∈ cur ++ [pyStrip s], P x := by
          intro x hx
          rcases List.mem_append.mp hx with h | h
          · exact hsub x h
          · rcases List.mem_singleton.mp h with rfl
            exact hP s (List.mem_cons_self s rest)
        have h0' : cur ++ [pyStrip s] = [] → curLen + (pyStrip s).length + 1 = 0 :=
          fun h => absurd h (by simp)
        by_cases hcur : cur = []
        · subst hcur
          have h00 := h0 rfl
          subst h00
          refine ih _ _ (fun t ht => hP t (List.mem_cons_of_mem s ht)) hsub' h0'
            (by simp [joinSp]) (by simp [joinSp]) ?_ c hc
          rcases le_or_lt (pyStrip s).length (maxS + 1) with hbig | hbig
          · exact Or.inl (by simpa [joinSp] using hbig)
          · exact Or.inr ⟨pyStrip s, by simp, by omega⟩
        · have hj := joinSp_append_singleton cur (pyStrip s) hcur
          refine ih _ _ (fun t ht => hP t (List.mem_cons_of_mem s ht)) hsub' h0'
            (by rw [hj]; simp only [List.length_append, List.length_cons]; omega)
            (by rw [hj]; simp only [List.length_append, List.length_cons]; omega)
            ?_ c hc
          rcases le_or_lt minS curLen with hge | hlt
          · -- flush did not fire, so the sum fits: the new buffer is small
            have hfit : curLen + (pyStrip s).length ≤ maxS := by
              by_contra hcon
              exact absurd (hcond (by omega)) (by omega)
            refine Or.inl ?_
            rw [hj]
            simp only [List.length_append, List.length_cons]
            omega
          · -- running length below minS: either still small, or the new
            -- sentence is oversized
            rcases le_or_lt (curLen + (pyStrip s).length) maxS with hfit | hover
            · refine Or.inl ?_
              rw [hj]
              simp only [List.length_append, List.length_cons]
              omega
            · refine Or.inr ⟨pyStrip s, by simp, by omega⟩

/-- Claim C2 (amended): every chunk emitted by the chunking pipeline has
content length at most `max_chunk_size + 1` (the packer counts one phantom
separator, so chunks of exactly `max_chunk_size + 1` characters occur),
unless the chunk contains a single stripped sentence of length at least
`max_chunk_size - min_chunk_size + 2` — a sentence absorbed while the
buffer was still below `min_chunk_size`, or a lone oversized sentence;
in particular the final fragment of a section obeys the same bound and
needs no separate exemption. -/
theorem create_chunks_max_bound (maxS minS : Nat) (hms : minS ≤ maxS)
    (text : List Char) :
    ∀ c ∈ create_chunks maxS minS text,
      c.content.length ≤ maxS + 1 ∨
        ∃ sec ∈ split_into_sections text,
          ∃ s ∈ splitSentences (joinSp sec.paras),
            pyStrip s <:+: c.content ∧
              maxS - minS + 2 ≤ (pyStrip s).length := by
  intro c hc
  simp only [create_chunks, List.mem_flatMap] at hc
  rcases hc with ⟨sec, hsec, hmem⟩
  rw [chunksOfSection] at hmem
  split at hmem
  · next hsmall =>
    simp only [List.mem_singleton] at hmem
    subst hmem
    refine Or.inl ?_
    show (joinSp sec.paras).length ≤ maxS + 1
    omega
  · have h := packGo_max_bound _ _ sec.title maxS minS hms
      (fun x => ∃ s ∈ splitSentences (joinSp sec.paras), x = pyStrip s)
      (splitSentences (joinSp sec.paras)) [] 0
      (fun s hs => ⟨s, hs, rfl⟩) (by simp) (fun _ => rfl)
      (by simp [joinSp]) (by simp [joinSp]) (Or.inl (by simp [joinSp]))
      c hmem
    rcases h with h | ⟨x, ⟨s, hs, rfl⟩, hinf, hlen⟩
    · exact Or.inl h
    · exact Or.inr ⟨sec, hsec, s, hs, hinf, hlen⟩

/-- Counterexample to claim C2 as stated: with `max = 10`, `min = 8`, the
single-section chapter `"aaaa. bbbbbb. c."` yields a first chunk
`"aaaa. bbbbbb."` of length 13 > 10 that is neither the final fragment of
its section (a second chunk follows) nor a single sentence (it re-splits
into two sentences, each within `max`): the buffer was below `min` when the
second sentence arrived, so the overflow check could not flush. -/
theorem create_chunks_max_counterexample :
    (create_chunks 10 8 "aaaa. bbbbbb. c.".data).map
        (fun c => (c.content, c.content.length))
      = [("aaaa. bbbbbb.".data, 13), ("c.".data, 2)] ∧
    10 < 13 ∧
    splitSentences "aaaa. bbbbbb.".data = ["aaaa.".data, "bbbbbb.".data] :=
  ⟨by decide, by decide, by decide⟩

/-- Witness for C2 (amended) at the oversized first chunk of the same
concrete chapter: the bound is met through the contained sentence
`"bbbbbb."` of length 7 ≥ 10 - 8 + 2. -/
theorem create_chunks_max_bound_witness :
    (Chunk.mk "Unknown".data [] "Introduction".data
        "aaaa. bbbbbb.".data 13).content.length ≤ 10 + 1 ∨
      ∃ sec ∈ split_into_sections "aaaa. bbbbbb. c.".data,
        ∃ s ∈ splitSentences (joinSp sec.paras),
          pyStrip s <:+: (Chunk.mk "Unknown".data [] "Introduction".data
            "aaaa. bbbbbb.".data 13).content ∧
            10 - 8 + 2 ≤ (pyStrip s).length :=
  create_chunks_max_bound 10 8 (by decide) "aaaa. bbbbbb. c.".data _ (by decide)

/-- Tokenizing an all-whitespace tail yields only the pending token. -/
theorem tokensGo_allspace :
    ∀ (ws : List Char), ws.all isPySpace = true → ∀ (cur : List Char),
      tokensGo cur ws = if cur = [] then [] else [cur.reverse] := by
  intro ws
  induction ws with
  | nil => intro _ cur; simp [tokensGo]
  | cons c ws' ih =>
    intro hall cur
    simp only [List.all_cons, Bool.and_eq_true] at hall
    simp only [tokensGo, hall.1, if_true]
    by_cases hcur : cur = []
    · rw [if_pos hcur, ih hall.2, if_pos rfl, if_pos hcur]
    · rw [if_neg hcur, ih hall.2, if_pos rfl, if_neg hcur]

/-- Splitting at a whitespace character splits the token stream. -/
theorem tokensGo_append_space (c : Char) (hc : isPySpace c = true) :
    ∀ (a b : List Char) (cur : List Char),
      tokensGo cur (a ++ c :: b) = tokensGo cur a ++ tokens b := by
  intro a
  induction a with
  | nil =>
    intro b cur
    simp only [List.nil_append, tokensGo, hc, if_true, tokens]
    by_cases hcur : cur = [] <;> simp [tokensGo, hcur]
  | cons x a' ih =>
    intro b cur
    show tokensGo cur (x :: (a' ++ c :: b)) = tokensGo cur (x :: a') ++ tokens b
    by_cases hx : isPySpace x = true
    · by_cases hcur : cur = []
      · subst hcur
        rw [show tokensGo [] (x :: (a' ++ c :: b))
              = tokensGo [] (a' ++ c :: b) from by simp [tokensGo, hx],
          show tokensGo [] (x :: a') = tokensGo [] a' from by
            simp [tokensGo, hx],
          ih]
      · rw [show tokensGo cur (x :: (a' ++ c :: b))
              = cur.reverse :: tokensGo [] (a' ++ c :: b) from by
            simp [tokensGo, hx, hcur],
          show tokensGo cur (x :: a') = cur.reverse :: tokensGo [] a' from by
            simp [tokensGo, hx, hcur],
          ih]
        simp
    · have hx' : isPySpace x = false := by simpa using hx
      rw [show tokensGo cur (x :: (a' ++ c :: b))
            = tokensGo (x :: cur) (a' ++ c :: b) from by simp [tokensGo, hx'],
        show tokensGo cur (x :: a') = tokensGo (x :: cur) a' from by
          simp [tokensGo, hx'],
        ih]

/-- Appending trailing whitespace does not change the token stream. -/
theorem tokens_append_allspace (a ws : List Char)
    (hws : ws.all isPySpace = true) : tokens (a ++ ws) = tokens a := by
  cases ws with
  | nil => simp
  | cons c ws' =>
    simp only [List.all_cons, Bool.and_eq_true] at hws
    rw [tokens, tokensGo_append_space c hws.1, tokens, tokensGo_allspace ws' hws.2]
    simp [tokens]

/-- Leading whitespace does not change the token stream. -/
theorem tokens_allspace_append (ws a : List Char)
    (hws : ws.all isPySpace = true) : tokens (ws ++ a) = tokens a := by
  induction ws with
  | nil => simp
  | cons c ws' ih =>
    simp only [List.all_cons, Bool.and_eq_true] at hws
    simp only [List.cons_append, tokens, tokensGo, hws.1, if_true, if_pos rfl]
    exact ih hws.2

/-- Stripping does not change the token stream. -/
theorem tokens_pyStrip (l : List Char) : tokens (pyStrip l) = tokens l := by
  have hleft : tokens (l.dropWhile isPySpace) = tokens l := by
    conv_rhs => rw [← List.takeWhile_append_dropWhile (p := isPySpace) (l := l)]
    rw [tokens_allspace_append]
    exact List.all_eq_true.mpr (fun x hx => List.mem_takeWhile_imp hx)
  set d := l.dropWhile isPySpace with hd
  have hdecomp : d = pyStrip l ++ (d.reverse.takeWhile isPySpace).reverse := by
    rw [pyStrip, ← hd]
    conv_lhs => rw [← List.reverse_reverse d,
      ← List.takeWhile_append_dropWhile (p := isPySpace) (l := d.reverse)]
    rw [List.reverse_append]
  rw [← hleft, hdecomp, tokens_append_allspace]
  exact List.all_eq_true.mpr (fun x hx => by
    rw [List.mem_reverse] at hx
    exact List.mem_takeWhile_imp hx)

/-- Tokens of a space-join are the concatenation of the pieces' tokens. -/
theorem tokens_joinSp : ∀ xs : List (List Char),
    tokens (joinSp xs) = xs.flatMap tokens := by
  intro xs
  induction xs with
  | nil => simp [joinSp, tokens, tokensGo]
  | cons x ys ih =>
    cases ys with
    | nil => simp [joinSp]
    | cons y zs =>
      calc tokens (joinSp (x :: y :: zs))
          = tokensGo [] (x ++ ' ' :: joinSp (y :: zs)) := rfl
        _ = tokensGo [] x ++ tokens (joinSp (y :: zs)) :=
            tokensGo_append_space ' ' (by decide) x (joinSp (y :: zs)) []
        _ = tokens x ++ (y :: zs).flatMap tokens := by rw [← tokens, ih]
        _ = (x :: y :: zs).flatMap tokens := by simp

/-- The sentence splitter only consumes whitespace: the pieces' token
streams concatenate to the input's token stream. -/
theorem splitSentGo_tokens :
    ∀ rest : List Char,
      (∀ acc : List Char,
        (splitSentGo false acc rest).flatMap tokens
          = tokens (acc.reverse ++ rest)) ∧
      (splitSentGo true [] rest).flatMap tokens = tokens rest := by
  intro rest
  induction rest with
  | nil =>
    constructor
    · intro acc
      simp [splitSentGo]
    · simp [splitSentGo, tokens, tokensGo]
  | cons c rest ih =>
    constructor
    · intro acc
      by_cases hsp : (isPySpace c && isSentEnd (acc.headD ' ')) = true
      · rw [show splitSentGo false acc (c :: rest)
            = acc.reverse :: splitSentGo true [] rest from by
          rw [show splitSentGo false acc (c :: rest)
              = if (isPySpace c && isSentEnd (acc.headD ' ')) = true
                then acc.reverse :: splitSentGo true [] rest
                else splitSentGo false (c :: acc) rest from rfl, if_pos hsp]]
        rw [List.flatMap_cons, ih.2]
        have hc : isPySpace c = true := by
          have h := hsp
          simp only [Bool.and_eq_true] at h
          exact h.1
        rw [show tokens (acc.reverse ++ c :: rest)
            = tokensGo [] acc.reverse ++ tokens rest from
          tokensGo_append_space c hc acc.reverse rest []]
        rfl
      · rw [show splitSentGo false acc (c :: rest)
            = splitSentGo false (c :: acc) rest from by
          rw [show splitSentGo false acc (c :: rest)
              = if (isPySpace c && isSentEnd (acc.headD ' ')) = true
                then acc.reverse :: splitSentGo true [] rest
                else splitSentGo false (c :: acc) rest from rfl, if_neg hsp]]
        rw [ih.1 (c :: acc)]
        simp
    · by_cases hc : isPySpace c = true
      · rw [show splitSentGo true [] (c :: rest) = splitSentGo true [] rest from by
            simp [splitSentGo, hc],
          ih.2,
          show tokens (c :: rest) = tokens rest from by
            simp [tokens, tokensGo, hc]]
      · have hc' : isPySpace c = false := by simpa using hc
        rw [show splitSentGo true [] (c :: rest) = splitSentGo false [c] rest from by
            simp [splitSentGo, hc'],
          ih.1 [c]]
        rfl

/-- The packing loop preserves the token stream: emitted chunk contents
carry the pending buffer followed by every remaining stripped sentence. -/
theorem packGo_tokens (wn : List Char) (al : List (List Char))
    (ti : List Char) (maxS minS : Nat) :
    ∀ (sents : List (List Char)) (cur : List (List Char)) (curLen : Nat),
      ((packGo wn al ti maxS minS cur curLen sents).map
          (fun c => c.content)).flatMap tokens
        = tokens (joinSp cur)
            ++ sents.flatMap (fun s => tokens (pyStrip s)) := by
  intro sents
  induction sents with
  | nil =>
    intro cur curLen
    simp only [packGo]
    split
    · next h => simp [h, joinSp, tokens, tokensGo]
    · simp
  | cons s rest ih =>
    intro cur curLen
    simp only [packGo]
    split
    · next hs' =>
      rw [ih]
      simp [List.flatMap_cons, hs', tokens, tokensGo]
    · split
      · rw [List.map_cons, List.flatMap_cons, ih]
        simp [joinSp, List.append_assoc, List.flatMap_cons]
      · rw [ih]
        by_cases hcur : cur = []
        · subst hcur
          simp [joinSp, tokens, tokensGo, List.flatMap_cons]
        · rw [joinSp_append_singleton cur _ hcur,
            show tokens (joinSp cur ++ ' ' :: pyStrip s)
              = tokensGo [] (joinSp cur) ++ tokens (pyStrip s) from
            tokensGo_append_space ' ' (by decide) (joinSp cur) (pyStrip s) []]
          simp [List.flatMap_cons, List.append_assoc, tokens]

/-- Sections partition the paragraph stream in order. -/
theorem sectGo_paras :
    ∀ (ps : List (List Char)) (cur : TextSection),
      (sectGo cur ps).flatMap (fun sec => sec.paras) = cur.paras ++ ps := by
  intro ps
  induction ps with
  | nil =>
    intro cur
    simp only [sectGo]
    split
    · next h => simp [h]
    · simp
  | cons p ps' ih =>
    intro cur
    simp only [sectGo]
    cases hfind : sectionMarkers.find? (fun m => m.isPrefixOf (pyLower p)) with
    | some m =>
      simp only [hfind, List.flatMap_append, ih]
      split
      · next h => simp [h]
      · simp
    | none =>
      simp only [hfind, ih]
      simp

/-- Chunks of one section carry exactly the section's token stream. -/
theorem chunksOfSection_tokens (maxS minS : Nat) (wn : List Char)
    (al : List (List Char)) (sec : TextSection) :
    ((chunksOfSection maxS minS wn al sec).map (fun c => c.content)).flatMap tokens
      = tokens (joinSp sec.paras) := by
  rw [chunksOfSection]
  split
  · simp
  · rw [packGo_tokens]
    have h1 : ∀ l : List (List Char),
        l.flatMap (fun s => tokens (pyStrip s)) = l.flatMap tokens := by
      intro l
      induction l with
      | nil => rfl
      | cons a l ih => simp [List.flatMap_cons, tokens_pyStrip, ih]
    rw [h1]
    have h2 := (splitSentGo_tokens (joinSp sec.paras)).1 []
    simp only [List.reverse_nil, List.nil_append] at h2
    rw [show splitSentences (joinSp sec.paras)
        = splitSentGo false [] (joinSp sec.paras) from rfl, h2]
    simp [joinSp, tokens, tokensGo]

/-- Claim C5: for every chapter text the concatenation of all emitted
chunks' contents, modulo whitespace normalization, equals the concatenation
of the chapter's non-empty stripped lines in original order — section
splitting followed by sentence chunking drops, duplicates, and reorders
nothing. -/
theorem create_chunks_content_preserved (maxS minS : Nat) (text : List Char) :
    normWS (joinSp ((create_chunks maxS minS text).map (fun c => c.content)))
      = normWS (joinSp (((splitNl text).map pyStrip).filter (fun p => p ≠ []))) := by
  unfold normWS
  congr 1
  rw [tokens_joinSp, tokens_joinSp]
  have hsec : ∀ (wn : List Char) (al : List (List Char)) (secs : List TextSection),
      ((secs.flatMap (chunksOfSection maxS minS wn al)).map
          (fun c => c.content)).flatMap tokens
        = (secs.flatMap (fun sec => sec.paras)).flatMap tokens := by
    intro wn al secs
    induction secs with
    | nil => rfl
    | cons a l ih =>
      simp only [List.flatMap_cons, List.map_append, List.flatMap_append, ih,
        chunksOfSection_tokens, tokens_joinSp]
  show ((create_chunks maxS minS text).map (fun c => c.content)).flatMap tokens = _
  rw [create_chunks]
  rw [hsec]
  rw [split_into_sections, sectGo_paras]
  rfl
